import Mathlib

/-!
Shallow embedding of the knapsack evolutionary-algorithm sweep
(`knapsack.py`): the fitness evaluator, the set-based variation
operators, the per-run evolution loop and result derivation, the
sweep grid and the final aggregation over probability pairs.

Python integers and floats are modelled by `ℕ`/`ℤ`/`ℚ`; Python sets of
item indices by `Finset ℕ`; a dict of items keyed by `range(n)` by a
`List` read through `List.getD`/`[·]?`; a fallible dict lookup by
`Option`.  The global pseudo-random stream of Python's `random` module
is modelled by an explicitly threaded deterministic generator state.
-/

namespace Knapsack

/-- Constant `IND_INIT_SIZE = 5` from the source. -/
def IND_INIT_SIZE : ℕ := 5

/-- Constant `MAX_ITEM = 50` from the source. -/
def MAX_ITEM : ℕ := 50

/-- Constant `MAX_WEIGHT = 50` from the source. -/
def MAX_WEIGHT : ℚ := 50

/-- Constant `NBR_ITEMS = 20` from the source. -/
def NBR_ITEMS : ℕ := 20

/-! ### Pseudo-random stream

Modelled from the spec: Python's `random` module (a Mersenne twister)
is external library code; the spec (§4.1, §5) requires only that the
stream is deterministic, reseedable from an integer seed, and that
`randrange(n)` lands in `[0, n)`, `randint(a, b)` in `[a, b]` and
`random()` in `[0, 1)`.  A linear congruential generator with those
ranges stands in for it; no claim depends on the distribution. -/

/-- State of the modelled pseudo-random stream. -/
abbrev RState := ℕ

/-- One step of the modelled generator. -/
def rnext (s : RState) : RState :=
  (s * 1103515245 + 12345) % 2147483648

/-- Modelled from the spec: `random.seed(n)` resets the stream from `n`. -/
def seedR (n : ℕ) : RState := n % 2147483648

/-- Modelled from the spec: `random.randrange(n)`, a uniform draw in `[0, n)`. -/
def randNat (s : RState) (n : ℕ) : ℕ × RState :=
  let s1 := rnext s
  (s1 % n, s1)

/-- Modelled from the spec: `random.random()`, a uniform draw in `[0, 1)`. -/
def randFloat (s : RState) : ℚ × RState :=
  let s1 := rnext s
  ((s1 : ℚ) / 2147483648, s1)

/-- Modelled from the spec: `random.randint(a, b)`, a uniform draw in `[a, b]`. -/
def randIntR (s : RState) (a b : ℤ) : ℤ × RState :=
  let s1 := rnext s
  (a + (s1 : ℤ) % (b - a + 1), s1)

/-! ### Item generation (`create_items`) -/

/-- Draws `n` items in index order, each as `(randint(1,10), uniform(0,100))`;
`uniform(0, 100)` is `100 * random()`. -/
def genItems : ℕ → RState → List (ℚ × ℚ) × RState
  | 0, st => ([], st)
  | n + 1, st =>
    let w := (randIntR st 1 10).1
    let st1 := (randIntR st 1 10).2
    let v := (randFloat st1).1
    let st2 := (randFloat st1).2
    (((w : ℚ), 100 * v) :: (genItems n st2).1, (genItems n st2).2)

/-- `create_items(seed)`: reseed the stream from `seed`, then build the
`NBR_ITEMS`-entry item table (dict keyed by `0..NBR_ITEMS-1`, modelled
positionally).  Also returns the stream state left behind by generation,
which the caller's subsequent draws continue from. -/
def create_items (seed : ℕ) : List (ℚ × ℚ) × RState :=
  genItems NBR_ITEMS (seedR seed)

/-- Dict lookup `items[i]` on the positional item table; `none` models a
`KeyError`. -/
def itemsOf (l : List (ℚ × ℚ)) : ℕ → Option (ℚ × ℚ) :=
  fun i => l[i]?

/-! ### Fitness evaluator (`evalKnapsack`) -/

/-- `sum(items[item][0] for item in individual)`; the `getD` default is
never read on inputs where every lookup succeeds. -/
def wsum (A : Finset ℕ) (items : ℕ → Option (ℚ × ℚ)) : ℚ :=
  A.sum fun i => ((items i).getD (0, 0)).1

/-- `sum(items[item][1] for item in individual)`; the `getD` default is
never read on inputs where every lookup succeeds. -/
def vsum (A : Finset ℕ) (items : ℕ → Option (ℚ × ℚ)) : ℚ :=
  A.sum fun i => ((items i).getD (0, 0)).2

/-- `evalKnapsack(individual, items)`: penalty `(10000, 0)` when
`len(individual) > MAX_ITEM or weight > MAX_WEIGHT`, else the exact
`(weight, value)`.  `none` models the `KeyError` raised when some member
is not a key of the item dict. -/
def evalKnapsack (A : Finset ℕ) (items : ℕ → Option (ℚ × ℚ)) : Option (ℚ × ℚ) :=
  if ∀ i ∈ A, (items i).isSome then
    if MAX_ITEM < A.card ∨ MAX_WEIGHT < wsum A items then some (10000, 0)
    else some (wsum A items, vsum A items)
  else none

/-! ### Variation operators (`cxSet`, `mutSet`) -/

/-- `cxSet(ind1, ind2)`: `temp = set(ind1); ind1 &= ind2; ind2 ^= temp`.
The first offspring is the intersection, the second the symmetric
difference of `ind2` with the pre-crossover `ind1`. -/
def cxSet (ind1 ind2 : Finset ℕ) : Finset ℕ × Finset ℕ :=
  let temp := ind1
  (ind1 ∩ ind2, (ind2 \ temp) ∪ (temp \ ind2))

/-- `mutSet(individual)` with its three random draws made explicit
arguments: `coin` is the `random.random()` draw, `j` the uniform index
`random.choice` picks into the sorted membership, `k` the
`random.randrange(NBR_ITEMS)` draw.  With `coin < 0.5` a uniformly chosen
member of the sorted membership is removed when the individual is
non-empty (and nothing happens when it is empty); otherwise `k` is added. -/
def mutSet (coin : ℚ) (j k : ℕ) (individual : Finset ℕ) : Finset ℕ :=
  if coin < 1 / 2 then
    if individual.Nonempty then
      individual.erase ((individual.sort (· ≤ ·)).getD j 0)
    else individual
  else
    insert k individual

/-- `mutSet` drawing its randomness from the threaded stream: the coin
first, then (only on the taken branch) the choice index or the
`randrange(NBR_ITEMS)` value, exactly as the source consumes the global
stream. -/
def mutSetR (st : RState) (individual : Finset ℕ) : Finset ℕ × RState :=
  let coin := (randFloat st).1
  let st1 := (randFloat st).2
  if coin < 1 / 2 then
    if individual.Nonempty then
      let j := (randNat st1 individual.card).1
      (individual.erase ((individual.sort (· ≤ ·)).getD j 0),
       (randNat st1 individual.card).2)
    else (individual, st1)
  else
    (insert (randNat st1 NBR_ITEMS).1 individual, (randNat st1 NBR_ITEMS).2)

/-! ### Dominance and NSGA-II selection

Modelled from the spec: `creator.Fitness` (weights `(-1.0, 1.0)`) and
`tools.selNSGA2` live in the external DEAP library; §4.4 and the
glossary define them: weight is minimized and value maximized, `a`
dominates `b` iff `a` is no worse on both objectives and strictly
better on at least one; selection appends whole non-domination fronts
and fills the last slots by descending crowding distance (boundary
individuals get infinite distance). -/

/-- Modelled from the spec: dominance between fitness tuples under
weights `(-1, 1)` — weight minimized, value maximized. -/
def dominates (a b : ℚ × ℚ) : Prop :=
  (a.1 ≤ b.1 ∧ b.2 ≤ a.2) ∧ (a.1 < b.1 ∨ b.2 < a.2)

instance : DecidableRel dominates := fun a b => by
  unfold dominates; infer_instance

/-- Boolean form of `dominates`, used inside the selection code. -/
def dominatesB (a b : ℚ × ℚ) : Bool := decide (dominates a b)

/-- An evaluated individual: membership set paired with its fitness. -/
abbrev EvalInd := Finset ℕ × (ℚ × ℚ)

/-- Modelled from the spec: successive non-domination fronts of a pool
(§4.4 step 1).  `fuel` bounds the recursion by the pool size; the
fallback branches are unreachable for pools where removal makes
progress. -/
def fronts : ℕ → List EvalInd → List (List EvalInd)
  | 0, pool => if pool.isEmpty then [] else [pool]
  | fuel + 1, pool =>
    if pool.isEmpty then []
    else
      let f1 := pool.filter fun x => !(pool.any fun y => dominatesB y.2 x.2)
      let rest := pool.filter fun x => pool.any fun y => dominatesB y.2 x.2
      if f1.isEmpty then [pool] else f1 :: fronts fuel rest

/-- Crowding contribution of value `v` along one objective within a
front: boundary values get infinite distance (`none`), interior values
the gap between their nearest neighbours below and above. -/
def cdObj (vals : List ℚ) (v : ℚ) : Option ℚ :=
  let lo := vals.filter fun x => decide (x < v)
  let hi := vals.filter fun x => decide (v < x)
  if lo.isEmpty || hi.isEmpty then none
  else some ((hi.foldl min (hi.headD 0)) - (lo.foldl max (lo.headD 0)))

/-- Addition of crowding distances, `none` standing for infinity. -/
def cdAdd : Option ℚ → Option ℚ → Option ℚ
  | none, _ => none
  | _, none => none
  | some a, some b => some (a + b)

/-- Order on crowding distances, `none` standing for infinity. -/
def cdLe : Option ℚ → Option ℚ → Bool
  | _, none => true
  | none, some _ => false
  | some a, some b => decide (a ≤ b)

/-- Crowding distance of one member of a front: the sum of its
per-objective contributions. -/
def crowdOf (front : List EvalInd) (x : EvalInd) : Option ℚ :=
  cdAdd (cdObj (front.map fun y => y.2.1) x.2.1)
        (cdObj (front.map fun y => y.2.2) x.2.2)

/-- Insert into a list kept in descending crowding-distance order. -/
def insertCd (x : EvalInd × Option ℚ) :
    List (EvalInd × Option ℚ) → List (EvalInd × Option ℚ)
  | [] => [x]
  | y :: ys => if cdLe x.2 y.2 then y :: insertCd x ys else x :: y :: ys

/-- Sort a front by descending crowding distance. -/
def sortByCd (front : List EvalInd) : List EvalInd :=
  ((front.map fun x => (x, crowdOf front x)).foldl
    (fun acc x => insertCd x acc) []).map fun p => p.1

/-- Modelled from the spec: fill the survivor list front by front,
sorting the overflowing front by descending crowding distance (§4.4
steps 2–3). -/
def selFronts : List (List EvalInd) → ℕ → List EvalInd
  | [], _ => []
  | f :: fs, k =>
    if f.length ≤ k then f ++ selFronts fs (k - f.length)
    else (sortByCd f).take k

/-- Modelled from the spec: `tools.selNSGA2(pool, k)`. -/
def selNSGA2 (pool : List EvalInd) (k : ℕ) : List EvalInd :=
  selFronts (fronts pool.length pool) k

/-- Modelled from the spec: the Pareto-front archive (`tools.ParetoFront`)
keeps pairwise non-dominated, de-duplicated individuals; an entrant that
is dominated or duplicated is dropped, otherwise it evicts every member
it dominates (§3 "Pareto Front"). -/
def paretoAdd (hof : List EvalInd) (x : EvalInd) : List EvalInd :=
  if hof.any fun y => dominatesB y.2 x.2 || decide (y.1 = x.1) then hof
  else x :: hof.filter fun y => !dominatesB x.2 y.2

/-! ### Evolution loop (`run_ea` and DEAP's `eaMuPlusLambda`) -/

/-- `NGEN = 100` from the source. -/
def NGEN : ℕ := 100

/-- `MU = 50` from the source. -/
def MU : ℕ := 50

/-- `LAMBDA = 100` from the source. -/
def LAMBDA : ℕ := 100

/-- Evaluation inside the run: every individual the loop produces is a
subset of `range NBR_ITEMS`, so the `getD` default is never read (see
the closure lemmas below). -/
def evalTotal (ind : Finset ℕ) (items : List (ℚ × ℚ)) : ℚ × ℚ :=
  (evalKnapsack ind (itemsOf items)).getD (10000, 0)

/-- `toolbox.individual`: `initRepeat` inserts `IND_INIT_SIZE` draws of
`attr_item = randrange(NBR_ITEMS)` into a fresh set. -/
def randIndivAux : ℕ → Finset ℕ → RState → Finset ℕ × RState
  | 0, acc, st => (acc, st)
  | n + 1, acc, st =>
    randIndivAux n (insert (randNat st NBR_ITEMS).1 acc) (randNat st NBR_ITEMS).2

/-- One random initial individual. -/
def randIndiv (st : RState) : Finset ℕ × RState :=
  randIndivAux IND_INIT_SIZE ∅ st

/-- `toolbox.population(n)`: `n` random individuals drawn in order. -/
def initPop : ℕ → RState → List (Finset ℕ) × RState
  | 0, st => ([], st)
  | n + 1, st =>
    ((randIndiv st).1 :: (initPop n (randIndiv st).2).1,
     (initPop n (randIndiv st).2).2)

/-- Modelled from the spec: one offspring pair of the generation step
(§4.5) — draw two parents with replacement, clone, apply crossover with
probability `cxpb`, then independently apply mutation with probability
`mutpb` to each of the two offspring. -/
def varPair (cxpb mutpb : ℚ) (pop : List (Finset ℕ)) (st : RState) :
    (Finset ℕ × Finset ℕ) × RState :=
  let (i, st1) := randNat st pop.length
  let (j, st2) := randNat st1 pop.length
  let c1 := pop.getD i ∅
  let c2 := pop.getD j ∅
  let (rc, st3) := randFloat st2
  let (c1, c2) := if rc < cxpb then cxSet c1 c2 else (c1, c2)
  let (rm1, st4) := randFloat st3
  let (c1, st5) := if rm1 < mutpb then mutSetR st4 c1 else (c1, st4)
  let (rm2, st6) := randFloat st5
  let (c2, st7) := if rm2 < mutpb then mutSetR st6 c2 else (c2, st6)
  ((c1, c2), st7)

/-- Modelled from the spec: produce `LAMBDA` offspring as `LAMBDA / 2`
pairs (§4.5). -/
def varOffspring (cxpb mutpb : ℚ) (pop : List (Finset ℕ)) :
    ℕ → RState → List (Finset ℕ) × RState
  | 0, st => ([], st)
  | n + 1, st =>
    let ((a, b), st1) := varPair cxpb mutpb pop st
    let (rest, st2) := varOffspring cxpb mutpb pop n st1
    (a :: b :: rest, st2)

/-- Full state of one evolution run between generations. -/
structure EAState where
  items : List (ℚ × ℚ)
  pop : List (Finset ℕ)
  hof : List EvalInd
  rng : RState

/-- Modelled from the spec: one generation step of `eaMuPlusLambda`
(§4.5) — offspring, evaluation, `mu + lambda` pooling, NSGA-II survivor
selection, Pareto-front update. -/
def eaStep (cxpb mutpb : ℚ) (s : EAState) : EAState :=
  let (off, st1) := varOffspring cxpb mutpb s.pop (LAMBDA / 2) s.rng
  let offE := off.map fun i => (i, evalTotal i s.items)
  let popE := s.pop.map fun i => (i, evalTotal i s.items)
  let next := selNSGA2 (popE ++ offE) MU
  { items := s.items
    pop := next.map fun p => p.1
    hof := offE.foldl paretoAdd s.hof
    rng := st1 }

/-- Run initialization per the source: `random.seed(seed)`, then
`create_items(seed)` (which itself reseeds and then draws), then the
initial population of `MU` individuals from the stream left by item
generation; the initial evaluated population seeds the Pareto front. -/
def eaInit (seed : ℕ) : EAState :=
  let _st0 := seedR seed
  let (items, st1) := create_items seed
  let (pop, st2) := initPop MU st1
  let popE := pop.map fun i => (i, evalTotal i items)
  { items := items, pop := pop, hof := popE.foldl paretoAdd [], rng := st2 }

/-- State of the run after `g` generation steps. -/
def eaState (cxpb mutpb : ℚ) (seed : ℕ) : ℕ → EAState
  | 0 => eaInit seed
  | g + 1 => eaStep cxpb mutpb (eaState cxpb mutpb seed g)

/-- One Generation Record of the Logbook.  The source's `Statistics`
compiles `avg`, `std`, `min`, `max` of the population's fitness tuples;
`std` involves a square root, is never read by the program, and is
omitted here. -/
structure GenRecord where
  gen : ℕ
  avg : ℚ × ℚ
  minF : ℚ × ℚ
  maxF : ℚ × ℚ

/-- Fold a binary operation over a list of fitness values, one
objective at a time (`numpy` with `axis=0`); empty input is unreachable
and yields the junk head default. -/
def statFold (op : ℚ → ℚ → ℚ) (fits : List (ℚ × ℚ)) : ℚ × ℚ :=
  ((fits.map fun f => f.1).foldl op ((fits.map fun f => f.1).headD 0),
   (fits.map fun f => f.2).foldl op ((fits.map fun f => f.2).headD 0))

/-- `stats.compile` over a population's fitness values, tagged with the
generation index. -/
def compileStats (g : ℕ) (fits : List (ℚ × ℚ)) : GenRecord :=
  { gen := g
    avg := ((fits.map fun f => f.1).sum / fits.length,
            (fits.map fun f => f.2).sum / fits.length)
    minF := statFold min fits
    maxF := statFold max fits }

/-- The Generation Record logged for generation `g`. -/
def recordOf (cxpb mutpb : ℚ) (seed g : ℕ) : GenRecord :=
  let s := eaState cxpb mutpb seed g
  compileStats g (s.pop.map fun i => evalTotal i s.items)

/-- The Logbook of one run: the records of generations `0 .. NGEN`.
The `gIn` argument is the global random-stream state at call time; the
body discards it because the run reseeds from `seed` first. -/
def run_ea_logbook (cxpb mutpb : ℚ) (seed : ℕ) (gIn : RState) : List GenRecord :=
  let _ := gIn
  (List.range (NGEN + 1)).map fun g => recordOf cxpb mutpb seed g

/-- `max(list)` of Python: `none` models the `ValueError` on an empty
list. -/
def pymax (l : List ℚ) : Option ℚ :=
  match l with
  | [] => none
  | x :: xs => some (xs.foldl max x)

/-- Result derivation over a Logbook (source lines 109–123): take
`overall_max_value = max` of the per-generation max value objectives,
and scan the records in order for the first generation attaining it
(`None` when no record matches, as in the source's initialization;
the first component of `(none, none)` models the `ValueError` of
`max` on an empty record list). -/
def deriveRunResult (records : List GenRecord) : Option ℕ × Option ℚ :=
  match pymax (records.map fun e => e.maxF.2) with
  | none => (none, none)
  | some m => ((records.find? fun e => e.maxF.2 == m).map fun e => e.gen, some m)

/-- `run_ea(cxpb, mutpb, seed)`: run the loop and derive
`(earliest_generation, overall_max_value)` from its Logbook. -/
def run_ea (cxpb mutpb : ℚ) (seed : ℕ) (gIn : RState) : Option ℕ × Option ℚ :=
  deriveRunResult (run_ea_logbook cxpb mutpb seed gIn)

/-! ### Sweep harness (`main`, collection phase) -/

/-- Python's `round(q, 1)`.  The sweep only ever rounds exact multiples
of `1/10`, where every rounding mode agrees, so round-half-up stands in
for float round-half-even. -/
def round1 (q : ℚ) : ℚ := ((round (10 * q) : ℤ) : ℚ) / 10

/-- One collected row: `(seed, cxpb, mutpb, run_ea result)`. -/
abbrev SweepRow := ℕ × ℚ × ℚ × (Option ℕ × Option ℚ)

/-- The nested sweep loops of `main`: `seed` over `range(1, 30)`, `i`
over `range(11)`, `cxpb = round(i/10, 1)`, `mutpb = round(1 - i/10, 1)`,
one `run_ea` row each, in loop order.  The run function is a parameter
so that grid facts are stated for any engine. -/
def sweepRuns (run : ℚ → ℚ → ℕ → Option ℕ × Option ℚ) : List SweepRow :=
  (List.range' 1 29).flatMap fun seed =>
    (List.range 11).map fun i : ℕ =>
      (seed, round1 ((i : ℚ) / 10), round1 (1 - (i : ℚ) / 10),
       run (round1 ((i : ℚ) / 10)) (round1 (1 - (i : ℚ) / 10)) seed)

/-- The `(seed, cxpb, mutpb)` columns of the sweep, independent of the
run engine. -/
def sweepPairs : List (ℕ × ℚ × ℚ) :=
  (List.range' 1 29).flatMap fun seed =>
    (List.range 11).map fun i : ℕ =>
      (seed, round1 ((i : ℚ) / 10), round1 (1 - (i : ℚ) / 10))

/-! ### Aggregation (`main`, selection phase) -/

/-- One row as the aggregation reads it; `egen` and `mval` are the
`earliest_gen` and `max_val` columns. -/
structure AggRow where
  seed : ℕ
  cxpb : ℚ
  mutpb : ℚ
  egen : ℚ
  mval : ℚ
deriving DecidableEq

/-- Append one `(earliest_gen, max_val)` observation to its
`(cxpb, mutpb)` group, adding a new group at the end on first
appearance — the insertion-order semantics of the Python dict. -/
def addToGroups (gs : List ((ℚ × ℚ) × List (ℚ × ℚ))) (key : ℚ × ℚ) (v : ℚ × ℚ) :
    List ((ℚ × ℚ) × List (ℚ × ℚ)) :=
  match gs with
  | [] => [(key, [v])]
  | (k, l) :: rest =>
    if k = key then (k, l ++ [v]) :: rest else (k, l) :: addToGroups rest key v

/-- `combos_dict`: group all rows by `(cxpb, mutpb)`, groups in
first-appearance order, observations in row order. -/
def groupRows (rows : List AggRow) : List ((ℚ × ℚ) × List (ℚ × ℚ)) :=
  rows.foldl (fun gs r => addToGroups gs (r.cxpb, r.mutpb) (r.egen, r.mval)) []

/-- `np.mean` of a list. -/
def npMean (l : List ℚ) : ℚ := l.sum / l.length

/-- The selection loop of `main`: fold the groups in order, carrying
the best combo with its mean `max_val` and mean `earliest_gen`.
`none` models the `float("-inf")` start, which the first (finite) group
always beats.  A strictly larger mean takes over; otherwise, a mean
within `1e-9` of the best with a strictly smaller mean generation takes
over. -/
def bestCombo (rows : List AggRow) : Option ((ℚ × ℚ) × ℚ × ℚ) :=
  (groupRows rows).foldl
    (fun best g =>
      let avgGen := npMean (g.2.map fun p => p.1)
      let avgVal := npMean (g.2.map fun p => p.2)
      match best with
      | none => some (g.1, avgVal, avgGen)
      | some (bc, bv, bg) =>
        if bv < avgVal then some (g.1, avgVal, avgGen)
        else if |avgVal - bv| < 1 / 1000000000 ∧ avgGen < bg then
          some (g.1, avgVal, avgGen)
        else some (bc, bv, bg))
    none

/-! ### Helper lemmas -/

lemma cxSet_fst (A B : Finset ℕ) : (cxSet A B).1 = A ∩ B := rfl

lemma cxSet_snd (A B : Finset ℕ) : (cxSet A B).2 = (B \ A) ∪ (A \ B) := rfl

lemma card_symm_diff (A B : Finset ℕ) :
    ((B \ A) ∪ (A \ B)).card + 2 * (A ∩ B).card = A.card + B.card := by
  have hd : Disjoint (B \ A) (A \ B) := disjoint_sdiff_sdiff
  have h1 : (B ∩ A).card + (B \ A).card = B.card := Finset.card_inter_add_card_sdiff B A
  have h2 : (A ∩ B).card + (A \ B).card = A.card := Finset.card_inter_add_card_sdiff A B
  have hcomm : (B ∩ A).card = (A ∩ B).card := by rw [Finset.inter_comm]
  have hu : ((B \ A) ∪ (A \ B)).card = (B \ A).card + (A \ B).card :=
    Finset.card_union_of_disjoint hd
  omega

lemma randNat_fst_lt (st : RState) {n : ℕ} (h : 0 < n) : (randNat st n).1 < n :=
  Nat.mod_lt _ h

lemma evalKnapsack_of_dom {A : Finset ℕ} {items : ℕ → Option (ℚ × ℚ)}
    (hdom : ∀ i ∈ A, (items i).isSome) :
    evalKnapsack A items =
      if MAX_ITEM < A.card ∨ MAX_WEIGHT < wsum A items then some (10000, 0)
      else some (wsum A items, vsum A items) := by
  unfold evalKnapsack
  rw [if_pos hdom]

lemma evalKnapsack_isSome_of_dom {A : Finset ℕ} {items : ℕ → Option (ℚ × ℚ)}
    (hdom : ∀ i ∈ A, (items i).isSome) : (evalKnapsack A items).isSome := by
  rw [evalKnapsack_of_dom hdom]
  by_cases h : MAX_ITEM < A.card ∨ MAX_WEIGHT < wsum A items <;> simp [h]

lemma evalKnapsack_eq_penalty_iff {A : Finset ℕ} {items : ℕ → Option (ℚ × ℚ)}
    (hdom : ∀ i ∈ A, (items i).isSome) :
    evalKnapsack A items = some (10000, 0) ↔
      MAX_ITEM < A.card ∨ MAX_WEIGHT < wsum A items := by
  rw [evalKnapsack_of_dom hdom]
  by_cases h : MAX_ITEM < A.card ∨ MAX_WEIGHT < wsum A items
  · simp [h]
  · rw [if_neg h]
    simp only [Option.some.injEq, Prod.mk.injEq]
    constructor
    · rintro ⟨hw, -⟩
      exact absurd (Or.inr (show MAX_WEIGHT < wsum A items by
        rw [hw]; norm_num [MAX_WEIGHT])) h
    · intro hc
      exact absurd hc h

/-! ### Claim theorems -/

/-- C1: for every individual `A` over the item table (every member a key
of the table), `evalKnapsack` returns a well-defined fitness tuple —
never an exception — and it is the penalty `(10000, 0)` if and only if
`len(A) > 50` or the summed weight exceeds `50`; otherwise it is exactly
`(sum of weights, sum of values)`. -/
theorem C1_evalKnapsack_penalty_iff (A : Finset ℕ) (items : ℕ → Option (ℚ × ℚ))
    (hdom : ∀ i ∈ A, (items i).isSome) :
    (evalKnapsack A items).isSome ∧
    (evalKnapsack A items = some (10000, 0) ↔
      MAX_ITEM < A.card ∨ MAX_WEIGHT < wsum A items) ∧
    (¬(MAX_ITEM < A.card ∨ MAX_WEIGHT < wsum A items) →
      evalKnapsack A items = some (wsum A items, vsum A items)) := by
  refine ⟨evalKnapsack_isSome_of_dom hdom, evalKnapsack_eq_penalty_iff hdom, fun h => ?_⟩
  rw [evalKnapsack_of_dom hdom, if_neg h]

/-- Witness for C1 at a concrete individual and item table. -/
theorem C1_evalKnapsack_penalty_iff_witness :
    evalKnapsack {0, 1} (itemsOf [(1, 5), (2, 7), (3, 9)]) = some (3, 12) := by
  have hw : wsum {0, 1} (itemsOf [(1, 5), (2, 7), (3, 9)]) = 3 := by
    simp [wsum, itemsOf]
    norm_num
  have hv : vsum {0, 1} (itemsOf [(1, 5), (2, 7), (3, 9)]) = 12 := by
    simp [vsum, itemsOf]
    norm_num
  have h := (C1_evalKnapsack_penalty_iff {0, 1} (itemsOf [(1, 5), (2, 7), (3, 9)])
    (by decide)).2.2 (by rw [hw]; norm_num [MAX_ITEM, MAX_WEIGHT])
  rw [h, hw, hv]

/-- C4: `cxSet` returns as first offspring the intersection `A ∩ B` and
as second offspring the symmetric difference of the pre-crossover `A`
with `B`; the first offspring's size is at most `min (len A) (len B)`
and the second offspring's size is `len A + len B - 2 * len (A ∩ B)`,
all measured against the pre-crossover inputs. -/
theorem C4_cxSet_inter_symmdiff (A B : Finset ℕ) :
    (cxSet A B).1 = A ∩ B ∧
    (cxSet A B).2 = (A \ B) ∪ (B \ A) ∧
    (cxSet A B).1.card ≤ min A.card B.card ∧
    (cxSet A B).2.card + 2 * (A ∩ B).card = A.card + B.card ∧
    (cxSet A B).2.card = A.card + B.card - 2 * (A ∩ B).card := by
  have hsnd : (cxSet A B).2 = (B \ A) ∪ (A \ B) := cxSet_snd A B
  have hcard : (cxSet A B).2.card + 2 * (A ∩ B).card = A.card + B.card := by
    rw [hsnd]; exact card_symm_diff A B
  refine ⟨rfl, by rw [hsnd, Finset.union_comm], ?_, hcard, by omega⟩
  exact le_min (Finset.card_le_card Finset.inter_subset_left)
    (Finset.card_le_card Finset.inter_subset_right)

/-- C8: the variation operators are total on edge cases — `mutSet` with
the remove branch selected leaves an empty individual unchanged, the add
branch leaves a full-universe individual unchanged (the drawn index is
already a member), `mutSet` on an empty individual always yields either
the empty set or a singleton below `NBR_ITEMS`, and `cxSet` yields
well-defined offspring on the empty and the full-universe individual. -/
theorem C8_operators_edge_cases :
    (∀ coin : ℚ, ∀ j k : ℕ, coin < 1 / 2 → mutSet coin j k ∅ = ∅) ∧
    (∀ coin : ℚ, ∀ j k : ℕ, ¬(coin < 1 / 2) → k < NBR_ITEMS →
      mutSet coin j k (Finset.range NBR_ITEMS) = Finset.range NBR_ITEMS) ∧
    (∀ st : RState, (mutSetR st ∅).1 = ∅ ∨
      ∃ k, k < NBR_ITEMS ∧ (mutSetR st ∅).1 = {k}) ∧
    (∀ B : Finset ℕ, cxSet ∅ B = (∅, B)) ∧
    (∀ A : Finset ℕ, cxSet A ∅ = (∅, A)) ∧
    (∀ A : Finset ℕ, A ⊆ Finset.range NBR_ITEMS →
      cxSet A (Finset.range NBR_ITEMS) = (A, Finset.range NBR_ITEMS \ A)) := by
  refine ⟨?_, ?_, ?_, ?_, ?_, ?_⟩
  · intro coin j k hcoin
    simp only [mutSet, if_pos hcoin]
    simp
  · intro coin j k hcoin hk
    simp only [mutSet, if_neg hcoin]
    exact Finset.insert_eq_self.mpr (Finset.mem_range.mpr hk)
  · intro st
    unfold mutSetR
    by_cases h : (randFloat st).1 < 1 / 2
    · left
      simp only [if_pos h]
      simp
    · right
      refine ⟨(randNat (randFloat st).2 NBR_ITEMS).1,
        randNat_fst_lt _ (by norm_num [NBR_ITEMS]), ?_⟩
      simp only [if_neg h]
      simp
  · intro B
    unfold cxSet
    simp
  · intro A
    unfold cxSet
    simp
  · intro A hA
    unfold cxSet
    refine Prod.ext ?_ ?_
    · simpa using Finset.inter_eq_left.mpr hA
    · have h0 : A \ Finset.range NBR_ITEMS = ∅ :=
        Finset.sdiff_eq_empty_iff_subset.mpr hA
      simp [h0]

/-- Witness for C8 at concrete inputs. -/
theorem C8_operators_edge_cases_witness :
    mutSet 0 0 3 ∅ = ∅ ∧
    mutSet 1 0 3 (Finset.range NBR_ITEMS) = Finset.range NBR_ITEMS ∧
    cxSet {1, 2} (Finset.range NBR_ITEMS) = ({1, 2}, Finset.range NBR_ITEMS \ {1, 2}) := by
  refine ⟨C8_operators_edge_cases.1 0 0 3 (by norm_num),
    C8_operators_edge_cases.2.1 1 0 3 (by norm_num) (by norm_num [NBR_ITEMS]),
    C8_operators_edge_cases.2.2.2.2.2 {1, 2} (by decide)⟩

/-- C3 counterexample: with the remove branch selected (`coin < 0.5`)
on an empty individual, `mutSet` does nothing — it does not fall
through to adding the drawn index `3`, contrary to the claim that an
empty individual always receives an added item. -/
theorem C3_mutSet_counterexample :
    ((0 : ℚ) < 1 / 2) ∧ mutSet 0 0 3 ∅ = ∅ ∧ (∅ : Finset ℕ) ≠ {3} := by
  refine ⟨by norm_num, ?_, by decide⟩
  simp only [mutSet, if_pos (show (0 : ℚ) < 1 / 2 by norm_num)]
  simp

/-- C3 (amended): one call to `mutSet` attempts at most one mutation
event — with `coin < 0.5` it removes the `j`-th element of the sorted
membership (a member, one of which corresponds to every element of the
individual) when the individual is non-empty, and does nothing when the
individual is empty; with the complementary probability it inserts the
drawn index `k`, a no-op when `k` is already a member. -/
theorem C3_mutSet_amended (coin : ℚ) (j k : ℕ) (A : Finset ℕ) :
    (coin < 1 / 2 → A.Nonempty → j < A.card →
      mutSet coin j k A = A.erase ((A.sort (· ≤ ·)).getD j 0) ∧
      (A.sort (· ≤ ·)).getD j 0 ∈ A ∧
      (mutSet coin j k A).card = A.card - 1) ∧
    (coin < 1 / 2 → A = ∅ → mutSet coin j k A = A) ∧
    (∀ x ∈ A, ∃ j2, j2 < A.card ∧ (A.sort (· ≤ ·)).getD j2 0 = x) ∧
    (¬(coin < 1 / 2) →
      mutSet coin j k A = insert k A ∧
      (k ∈ A → mutSet coin j k A = A) ∧
      (k ∉ A → (mutSet coin j k A).card = A.card + 1)) := by
  refine ⟨?_, ?_, ?_, ?_⟩
  · intro hcoin hne hj
    have hlen : (A.sort (· ≤ ·)).length = A.card := Finset.length_sort _
    have hjl : j < (A.sort (· ≤ ·)).length := by rw [hlen]; exact hj
    have hget : (A.sort (· ≤ ·)).getD j 0 = (A.sort (· ≤ ·))[j] := by
      simp [List.getD_eq_getElem?_getD, List.getElem?_eq_getElem hjl]
    have hmem : (A.sort (· ≤ ·)).getD j 0 ∈ A := by
      rw [hget]
      exact Finset.mem_sort (α := ℕ) (· ≤ ·) |>.mp (List.getElem_mem hjl)
    have heq : mutSet coin j k A = A.erase ((A.sort (· ≤ ·)).getD j 0) := by
      simp only [mutSet, if_pos hcoin, if_pos hne]
    exact ⟨heq, hmem, by rw [heq]; exact Finset.card_erase_of_mem hmem⟩
  · intro hcoin hA
    subst hA
    simp only [mutSet, if_pos hcoin]
    simp
  · intro x hx
    have hxs : x ∈ A.sort (· ≤ ·) := Finset.mem_sort (α := ℕ) (· ≤ ·) |>.mpr hx
    obtain ⟨n, hn, hval⟩ := List.mem_iff_getElem.mp hxs
    refine ⟨n, by rw [← Finset.length_sort (· ≤ ·)]; exact hn, ?_⟩
    simp [List.getD_eq_getElem?_getD, List.getElem?_eq_getElem hn, hval]
  · intro hcoin
    have heq : mutSet coin j k A = insert k A := by
      simp only [mutSet, if_neg hcoin]
    refine ⟨heq, fun hk => by rw [heq]; exact Finset.insert_eq_self.mpr hk,
      fun hk => by rw [heq]; exact Finset.card_insert_of_not_mem hk⟩

/-- Witness for the amended C3 at concrete inputs: removal of the
`j = 0`-th sorted member of `{5, 9}`, the no-op on the empty
individual, and insertion of `3` into `{5}`. -/
theorem C3_mutSet_amended_witness :
    mutSet (1 / 4) 0 3 {5, 9} = ({5, 9} : Finset ℕ).erase ((({5, 9} : Finset ℕ).sort (· ≤ ·)).getD 0 0) ∧
    mutSet (1 / 4) 0 3 ∅ = ∅ ∧
    mutSet 1 0 3 {5} = insert 3 {5} := by
  refine ⟨((C3_mutSet_amended (1 / 4) 0 3 {5, 9}).1 (by norm_num) (by decide) (by decide)).1,
    (C3_mutSet_amended (1 / 4) 0 3 ∅).2.1 (by norm_num) rfl,
    ((C3_mutSet_amended 1 0 3 {5}).2.2.2 (by norm_num)).1⟩

/-- C9: under the dominance order with weight minimized and value
maximized, the penalty fitness `(10000, 0)` dominates no tuple that
`evalKnapsack` can return (over item tables with nonnegative values),
and every feasible (non-penalty) returned tuple dominates it. -/
theorem C9_penalty_dominated (A : Finset ℕ) (items : ℕ → Option (ℚ × ℚ))
    (t : ℚ × ℚ) (hdom : ∀ i ∈ A, (items i).isSome)
    (hval : ∀ i ∈ A, 0 ≤ ((items i).getD (0, 0)).2)
    (ht : evalKnapsack A items = some t) :
    ¬ dominates (10000, 0) t ∧ (t ≠ (10000, 0) → dominates t (10000, 0)) := by
  rw [evalKnapsack_of_dom hdom] at ht
  by_cases h : MAX_ITEM < A.card ∨ MAX_WEIGHT < wsum A items
  · rw [if_pos h] at ht
    have ht' : t = (10000, 0) := (Option.some.inj ht).symm
    subst ht'
    refine ⟨fun hd => ?_, fun hne => absurd rfl hne⟩
    rcases hd.2 with h1 | h1 <;> exact lt_irrefl _ h1
  · rw [if_neg h] at ht
    have ht' : t = (wsum A items, vsum A items) := (Option.some.inj ht).symm
    push_neg at h
    have hwle : wsum A items ≤ 50 := h.2
    have hvge : 0 ≤ vsum A items := Finset.sum_nonneg hval
    subst ht'
    constructor
    · intro hd
      have h1 : (10000 : ℚ) ≤ wsum A items := hd.1.1
      linarith
    · intro _
      exact ⟨⟨show wsum A items ≤ 10000 by linarith,
        show (0 : ℚ) ≤ vsum A items from hvge⟩,
        Or.inl (show wsum A items < 10000 by linarith)⟩

/-- Witness for C9: the feasible tuple `(1, 5)` returned on `{0}` over a
one-item table dominates the penalty tuple, and is not dominated by it. -/
theorem C9_penalty_dominated_witness :
    ¬ dominates (10000, 0) (1, 5) ∧ dominates (1, 5) (10000, 0) := by
  have ht : evalKnapsack {0} (itemsOf [(1, 5)]) = some (1, 5) := by
    have hw : wsum {0} (itemsOf [(1, 5)]) = 1 := by simp [wsum, itemsOf]
    have hv : vsum {0} (itemsOf [(1, 5)]) = 5 := by simp [vsum, itemsOf]
    rw [evalKnapsack_of_dom (by decide),
      if_neg (by rw [hw]; norm_num [MAX_ITEM, MAX_WEIGHT]), hw, hv]
  have h := C9_penalty_dominated {0} (itemsOf [(1, 5)]) (1, 5) (by decide)
    (by intro i hi; fin_cases hi; norm_num [itemsOf]) ht
  exact ⟨h.1, h.2 (by norm_num)⟩

lemma npMean_singleton (x : ℚ) : npMean [x] = x := by
  simp [npMean]

/-- C2 counterexample: two groups whose mean `max_value`s lie within
the `1e-9` tolerance of each other, where the later-iterated group has
the strictly larger raw mean but the strictly larger mean
`earliest_generation`; the selection loop picks the later group through
its strict `>` branch, not the lower-generation group the tie-break
rule of the claim would pick. -/
theorem C2_aggregation_counterexample :
    bestCombo [⟨1, 1 / 10, 9 / 10, 10, 80⟩, ⟨1, 1 / 5, 4 / 5, 50, 80 + 1 / 2000000000⟩]
      = some ((1 / 5, 4 / 5), 80 + 1 / 2000000000, 50) ∧
    |(80 + 1 / 2000000000 : ℚ) - 80| < 1 / 1000000000 ∧
    ((1 / 5, 4 / 5) : ℚ × ℚ) ≠ ((1 / 10, 9 / 10) : ℚ × ℚ) ∧
    (10 : ℚ) < 50 := by
  refine ⟨?_, ?_, by norm_num [Prod.ext_iff], by norm_num⟩
  · have hgroups : groupRows [⟨1, 1 / 10, 9 / 10, 10, 80⟩,
        ⟨1, 1 / 5, 4 / 5, 50, 80 + 1 / 2000000000⟩] =
        [((1 / 10, 9 / 10), [(10, 80)]),
         ((1 / 5, 4 / 5), [(50, 80 + 1 / 2000000000)])] := by
      simp only [groupRows, List.foldl, addToGroups]
      rw [if_neg (by norm_num [Prod.ext_iff])]
    unfold bestCombo
    rw [hgroups]
    simp only [List.foldl, List.map, npMean_singleton]
    rw [if_pos (by norm_num)]
  · rw [show (80 + 1 / 2000000000 : ℚ) - 80 = 1 / 2000000000 by ring,
      abs_of_pos (by norm_num)]
    norm_num

/-- C2 (amended): the aggregation groups rows by `(cxpb, mutpb)` in
first-appearance order and folds over the groups carrying the current
best: a group whose mean `max_value` strictly exceeds the current best
is always selected, even within the `1e-9` tolerance; only a group
whose mean does not exceed the best but lies within `1e-9` of it is
selected by the lower mean `earliest_generation`.  For two groups
within tolerance, the winner is the second group iff its raw mean is
strictly larger or its mean generation is strictly lower. -/
theorem C2_aggregation_amended (s1 s2 : ℕ) (c1x c1y c2x c2y g1 v1 g2 v2 : ℚ)
    (hk : ((c1x, c1y) : ℚ × ℚ) ≠ (c2x, c2y))
    (htol : |v2 - v1| < 1 / 1000000000) :
    bestCombo [⟨s1, c1x, c1y, g1, v1⟩, ⟨s2, c2x, c2y, g2, v2⟩] =
      if v1 < v2 then some ((c2x, c2y), v2, g2)
      else if g2 < g1 then some ((c2x, c2y), v2, g2)
      else some ((c1x, c1y), v1, g1) := by
  have hgroups : groupRows [⟨s1, c1x, c1y, g1, v1⟩, ⟨s2, c2x, c2y, g2, v2⟩] =
      [((c1x, c1y), [(g1, v1)]), ((c2x, c2y), [(g2, v2)])] := by
    simp only [groupRows, List.foldl, addToGroups]
    rw [if_neg hk]
  have htol2 : ¬((1000000000 : ℚ)⁻¹ ≤ |v2 - v1|) := by
    rw [← one_div]
    exact not_le.mpr htol
  unfold bestCombo
  rw [hgroups]
  by_cases h1 : v1 < v2 <;> by_cases h2 : g2 < g1 <;>
    simp [List.foldl, npMean_singleton, h1, h2, htol, htol2]

/-- Witness for the amended C2: equal raw means within tolerance, the
second group has the lower mean generation and is selected. -/
theorem C2_aggregation_amended_witness :
    bestCombo [⟨1, 1 / 10, 9 / 10, 10, 80⟩, ⟨2, 1 / 5, 4 / 5, 5, 80⟩] =
      some ((1 / 5, 4 / 5), 80, 5) := by
  have h := C2_aggregation_amended 1 2 (1 / 10) (9 / 10) (1 / 5) (4 / 5) 10 80 5 80
    (by norm_num [Prod.ext_iff]) (by norm_num)
  rw [h, if_neg (by norm_num), if_pos (by norm_num)]

lemma round1_of_mul_ten_int (q : ℚ) (z : ℤ) (h : 10 * q = (z : ℚ)) : round1 q = q := by
  unfold round1
  rw [h, round_intCast, ← h]
  ring

lemma round1_tenth (i : ℕ) : round1 ((i : ℚ) / 10) = (i : ℚ) / 10 :=
  round1_of_mul_ten_int _ (i : ℤ) (by push_cast; ring)

lemma round1_one_sub_tenth (i : ℕ) :
    round1 (1 - (i : ℚ) / 10) = 1 - (i : ℚ) / 10 :=
  round1_of_mul_ten_int _ ((10 - i : ℤ)) (by push_cast; ring)

lemma filter_flatMap_grid {β : Type} (l : List ℕ) (f : ℕ → List (ℕ × β)) (s : ℕ)
    (hl : l.Nodup) (hs : s ∈ l) (hf : ∀ a ∈ l, ∀ x ∈ f a, x.1 = a) :
    ((l.flatMap f).filter fun p => p.1 == s) = f s := by
  induction l with
  | nil => cases hs
  | cons a t ih =>
    rw [List.flatMap_cons, List.filter_append]
    rcases List.mem_cons.mp hs with rfl | hst
    · have h1 : (f s).filter (fun p => p.1 == s) = f s :=
        List.filter_eq_self.mpr fun x hx => by
          simp [hf s (List.mem_cons_self _ _) x hx]
      have h2 : (t.flatMap f).filter (fun p => p.1 == s) = [] := by
        rw [List.filter_eq_nil_iff]
        intro x hx
        obtain ⟨b, hb, hxb⟩ := List.mem_flatMap.mp hx
        have hx1 : x.1 = b := hf b (List.mem_cons_of_mem _ hb) x hxb
        have hbs : b ≠ s := fun hbs => (List.nodup_cons.mp hl).1 (hbs ▸ hb)
        simp [hx1, hbs]
      rw [h1, h2, List.append_nil]
    · have has : a ≠ s := fun h => (List.nodup_cons.mp hl).1 (h ▸ hst)
      have h1 : (f a).filter (fun p => p.1 == s) = [] := by
        rw [List.filter_eq_nil_iff]
        intro x hx
        have hx1 : x.1 = a := hf a (List.mem_cons_self _ _) x hx
        simp [hx1, has]
      rw [h1, List.nil_append]
      exact ih (List.nodup_cons.mp hl).2 hst
        fun b hb x hx => hf b (List.mem_cons_of_mem _ hb) x hx

/-- The sweep grid with the (identity) rounding evaluated away. -/
def plainGrid : List (ℕ × ℚ × ℚ) :=
  (List.range' 1 29).flatMap fun seed =>
    (List.range 11).map fun i : ℕ => (seed, (i : ℚ) / 10, 1 - (i : ℚ) / 10)

lemma sweepPairs_eq_plainGrid : sweepPairs = plainGrid := by
  unfold sweepPairs plainGrid
  refine congrArg _ (funext fun seed => ?_)
  refine List.map_congr_left fun i _ => ?_
  rw [round1_tenth i, round1_one_sub_tenth i]

/-- C7: the sweep produces exactly `29 × 11 = 319` rows — one per seed
in `1..29` and probability pair `(round(i/10, 1), round(1 - i/10, 1))`
for `i` in `0..10` — whose `(seed, cxpb, mutpb)` columns are exactly the
grid with `cxpb` running over `0.0, 0.1, …, 1.0` and `mutpb = 1 - cxpb`;
for every fixed seed of the range the sweep holds exactly those 11
rows. -/
theorem C7_sweep_structure (run : ℚ → ℚ → ℕ → Option ℕ × Option ℚ) :
    (sweepRuns run).length = 319 ∧
    (sweepRuns run).map (fun r => (r.1, r.2.1, r.2.2.1)) = sweepPairs ∧
    sweepPairs = plainGrid ∧
    (∀ p ∈ sweepPairs, p.2.2 = 1 - p.2.1) ∧
    (∀ s ∈ List.range' 1 29,
      (sweepPairs.filter fun p => p.1 == s) =
        (List.range 11).map fun i : ℕ => (s, (i : ℚ) / 10, 1 - (i : ℚ) / 10)) := by
  refine ⟨?_, ?_, sweepPairs_eq_plainGrid, ?_, ?_⟩
  · unfold sweepRuns
    rw [List.flatMap]
    rw [List.length_flatten, List.map_map]
    simp only [Function.comp_def, List.length_map, List.length_range]
    decide
  · unfold sweepRuns sweepPairs
    rw [List.map_flatMap]
    refine congrArg _ (funext fun seed => ?_)
    rw [List.map_map]
    rfl
  · intro p hp
    rw [sweepPairs_eq_plainGrid] at hp
    obtain ⟨seed, _, hin⟩ := List.mem_flatMap.mp hp
    obtain ⟨i, _, rfl⟩ := List.mem_map.mp hin
    rfl
  · intro s hs
    rw [sweepPairs_eq_plainGrid]
    unfold plainGrid
    exact filter_flatMap_grid _ _ s (List.nodup_range' 1 29) hs
      fun a _ x hx => by
        obtain ⟨i, _, rfl⟩ := List.mem_map.mp hx
        rfl

/-- Witness for C7 with a trivial run engine and seed `7`. -/
theorem C7_sweep_structure_witness :
    (sweepRuns fun _ _ _ => (none, none)).length = 319 ∧
    ((sweepPairs.filter fun p => p.1 == 7) =
      (List.range 11).map fun i : ℕ => (7, (i : ℚ) / 10, 1 - (i : ℚ) / 10)) :=
  ⟨(C7_sweep_structure fun _ _ _ => (none, none)).1,
   (C7_sweep_structure fun _ _ _ => (none, none)).2.2.2.2 7 (by decide)⟩

lemma randIndivAux_subset (n : ℕ) (acc : Finset ℕ) (st : RState)
    (hacc : acc ⊆ Finset.range NBR_ITEMS) :
    (randIndivAux n acc st).1 ⊆ Finset.range NBR_ITEMS := by
  induction n generalizing acc st with
  | zero => exact hacc
  | succ n ih =>
    simp only [randIndivAux]
    exact ih _ _ (Finset.insert_subset_iff.mpr
      ⟨Finset.mem_range.mpr (randNat_fst_lt st (by norm_num [NBR_ITEMS])), hacc⟩)

lemma initPop_mem_subset (n : ℕ) (st : RState) (ind : Finset ℕ)
    (hmem : ind ∈ (initPop n st).1) : ind ⊆ Finset.range NBR_ITEMS := by
  induction n generalizing st with
  | zero => cases hmem
  | succ n ih =>
    simp only [initPop, List.mem_cons] at hmem
    rcases hmem with rfl | hmem
    · exact randIndivAux_subset _ _ _ (Finset.empty_subset _)
    · exact ih _ hmem

lemma genItems_length (n : ℕ) (st : RState) : (genItems n st).1.length = n := by
  induction n generalizing st with
  | zero => rfl
  | succ n ih => simp [genItems, ih]

lemma itemsOf_dom {A : Finset ℕ} {l : List (ℚ × ℚ)}
    (hA : A ⊆ Finset.range NBR_ITEMS) (hl : l.length = NBR_ITEMS) :
    ∀ i ∈ A, (itemsOf l i).isSome := by
  intro i hi
  have hilt : i < l.length := by
    rw [hl]
    exact Finset.mem_range.mp (hA hi)
  simp [itemsOf, List.getElem?_eq_getElem hilt]

/-- C10: every way the program builds an individual stays inside
`[0, NBR_ITEMS)` — initial individuals, both `mutSet` branches (the
added index comes from `randrange(NBR_ITEMS)`), and both `cxSet`
offspring — and consequently, on such individuals over a generated item
table, `evalKnapsack` never fails a lookup, the `len > MAX_ITEM`
condition is unreachable (`card ≤ 20 ≤ 50`), and the penalty fires
exactly when the summed weight exceeds `MAX_WEIGHT`. -/
theorem C10_reachable_individuals_in_range :
    (∀ n st ind, ind ∈ (initPop n st).1 → ind ⊆ Finset.range NBR_ITEMS) ∧
    (∀ (coin : ℚ) (j k : ℕ) (A : Finset ℕ), A ⊆ Finset.range NBR_ITEMS →
      k < NBR_ITEMS → mutSet coin j k A ⊆ Finset.range NBR_ITEMS) ∧
    (∀ st A, A ⊆ Finset.range NBR_ITEMS →
      (mutSetR st A).1 ⊆ Finset.range NBR_ITEMS) ∧
    (∀ A B, A ⊆ Finset.range NBR_ITEMS → B ⊆ Finset.range NBR_ITEMS →
      (cxSet A B).1 ⊆ Finset.range NBR_ITEMS ∧
      (cxSet A B).2 ⊆ Finset.range NBR_ITEMS) ∧
    (∀ seed, (create_items seed).1.length = NBR_ITEMS) ∧
    (∀ (A : Finset ℕ) (l : List (ℚ × ℚ)), A ⊆ Finset.range NBR_ITEMS →
      l.length = NBR_ITEMS →
      (evalKnapsack A (itemsOf l)).isSome ∧
      ¬ MAX_ITEM < A.card ∧
      (evalKnapsack A (itemsOf l) = some (10000, 0) ↔
        MAX_WEIGHT < wsum A (itemsOf l))) := by
  refine ⟨initPop_mem_subset, ?_, ?_, ?_, ?_, ?_⟩
  · intro coin j k A hA hk
    unfold mutSet
    split_ifs with h1 h2
    · exact (Finset.erase_subset _ _).trans hA
    · exact hA
    · exact Finset.insert_subset_iff.mpr ⟨Finset.mem_range.mpr hk, hA⟩
  · intro st A hA
    unfold mutSetR
    by_cases h1 : (randFloat st).1 < 1 / 2
    · by_cases h2 : A.Nonempty
      · simp only [if_pos h1, if_pos h2]
        exact (Finset.erase_subset _ _).trans hA
      · simp only [if_pos h1, if_neg h2]
        exact hA
    · simp only [if_neg h1]
      exact Finset.insert_subset_iff.mpr
        ⟨Finset.mem_range.mpr (randNat_fst_lt _ (by norm_num [NBR_ITEMS])), hA⟩
  · intro A B hA hB
    exact ⟨Finset.inter_subset_left.trans hA,
      Finset.union_subset ((Finset.sdiff_subset).trans hB)
        ((Finset.sdiff_subset).trans hA)⟩
  · intro seed
    exact genItems_length _ _
  · intro A l hA hl
    have hdom := itemsOf_dom hA hl
    have hcard : A.card ≤ NBR_ITEMS := by
      have := Finset.card_le_card hA
      simpa using this
    have hlen : ¬ MAX_ITEM < A.card := by
      rw [MAX_ITEM]
      rw [NBR_ITEMS] at hcard
      omega
    refine ⟨evalKnapsack_isSome_of_dom hdom, hlen, ?_⟩
    rw [evalKnapsack_eq_penalty_iff hdom]
    exact or_iff_right hlen

/-- Witness for C10 at concrete inputs. -/
theorem C10_reachable_individuals_in_range_witness :
    mutSet 1 0 3 {5} ⊆ Finset.range NBR_ITEMS ∧
    (cxSet {1, 2} {2, 3}).2 ⊆ Finset.range NBR_ITEMS ∧
    (create_items 1).1.length = NBR_ITEMS ∧
    ¬ MAX_ITEM < ({1, 2} : Finset ℕ).card :=
  ⟨C10_reachable_individuals_in_range.2.1 1 0 3 {5} (by decide) (by norm_num [NBR_ITEMS]),
   (C10_reachable_individuals_in_range.2.2.2.1 {1, 2} {2, 3} (by decide) (by decide)).2,
   C10_reachable_individuals_in_range.2.2.2.2.1 1,
   (C10_reachable_individuals_in_range.2.2.2.2.2 {1, 2} [(1, 1), (1, 1), (1, 1), (1, 1), (1, 1),
      (1, 1), (1, 1), (1, 1), (1, 1), (1, 1), (1, 1), (1, 1), (1, 1), (1, 1), (1, 1),
      (1, 1), (1, 1), (1, 1), (1, 1), (1, 1)] (by decide) (by decide)).2.1⟩

lemma le_foldl_max (l : List ℚ) (a : ℚ) :
    a ≤ l.foldl max a ∧ ∀ x ∈ l, x ≤ l.foldl max a := by
  induction l generalizing a with
  | nil => exact ⟨le_refl a, by simp⟩
  | cons y t ih =>
    rw [List.foldl_cons]
    refine ⟨le_trans (le_max_left a y) (ih (max a y)).1, ?_⟩
    intro x hx
    rcases List.mem_cons.mp hx with rfl | hxt
    · exact le_trans (le_max_right a x) (ih (max a x)).1
    · exact (ih (max a y)).2 x hxt

lemma foldl_max_mem (l : List ℚ) (a : ℚ) :
    l.foldl max a = a ∨ l.foldl max a ∈ l := by
  induction l generalizing a with
  | nil => left; rfl
  | cons y t ih =>
    rw [List.foldl_cons]
    rcases ih (max a y) with h | h
    · rcases max_choice a y with hm | hm
      · left
        rw [h, hm]
      · right
        rw [h, hm]
        exact List.mem_cons_self y t
    · right
      exact List.mem_cons_of_mem y h

lemma pymax_spec {l : List ℚ} {m : ℚ} (h : pymax l = some m) :
    m ∈ l ∧ ∀ x ∈ l, x ≤ m := by
  cases l with
  | nil => cases h
  | cons x xs =>
    have hm : m = xs.foldl max x := (Option.some.inj h).symm
    subst hm
    constructor
    · rcases foldl_max_mem xs x with h1 | h1
      · rw [h1]
        exact List.mem_cons_self x xs
      · exact List.mem_cons_of_mem x h1
    · intro z hz
      rcases List.mem_cons.mp hz with rfl | hzt
      · exact (le_foldl_max xs z).1
      · exact (le_foldl_max xs x).2 z hzt

lemma pymax_of_ne_nil {l : List ℚ} (h : l ≠ []) : ∃ m, pymax l = some m := by
  cases l with
  | nil => exact absurd rfl h
  | cons x xs => exact ⟨xs.foldl max x, rfl⟩

lemma find?_gen_min {p : GenRecord → Bool} {l : List GenRecord} {r : GenRecord}
    (hsort : l.Pairwise fun a b => a.gen < b.gen) (h : l.find? p = some r) :
    ∀ x ∈ l, p x → r.gen ≤ x.gen := by
  induction l with
  | nil => cases h
  | cons a t ih =>
    by_cases hpa : p a
    · rw [List.find?_cons_of_pos _ hpa] at h
      have hra : r = a := (Option.some.inj h).symm
      subst hra
      intro x hx _
      rcases List.mem_cons.mp hx with rfl | hxt
      · exact le_refl _
      · exact le_of_lt ((List.pairwise_cons.mp hsort).1 x hxt)
    · rw [List.find?_cons_of_neg _ hpa] at h
      intro x hx hpx
      rcases List.mem_cons.mp hx with rfl | hxt
      · exact absurd hpx hpa
      · exact ih (List.pairwise_cons.mp hsort).2 h x hxt hpx

lemma gens_pairwise {records : List GenRecord}
    (h : records.map (fun r => r.gen) = List.range (NGEN + 1)) :
    records.Pairwise fun a b => a.gen < b.gen := by
  have hp : (records.map fun r => r.gen).Pairwise (· < ·) := by
    rw [h]
    exact List.pairwise_lt_range _
  exact List.pairwise_map.mp hp

lemma run_ea_logbook_length (cx mpb : ℚ) (seed : ℕ) (gIn : RState) :
    (run_ea_logbook cx mpb seed gIn).length = 101 := by
  simp [run_ea_logbook, NGEN]

lemma run_ea_logbook_gens (cx mpb : ℚ) (seed : ℕ) (gIn : RState) :
    (run_ea_logbook cx mpb seed gIn).map (fun r => r.gen) = List.range 101 := by
  unfold run_ea_logbook
  rw [List.map_map]
  have hcomp : ((fun r => GenRecord.gen r) ∘ fun g => recordOf cx mpb seed g) =
      fun g : ℕ => g := funext fun g => rfl
  rw [hcomp]
  show List.map id (List.range (NGEN + 1)) = List.range 101
  rw [List.map_id]
  rfl

/-- C5: the Logbook of every completed run has exactly 101 records for
generations `0 .. 100`; the Run Result is derived from the Logbook as
the maximum per-generation max value objective together with the first
(smallest) generation whose recorded value is exactly equal to it —
stated for any record list with the run's generation structure — so
`earliest_generation` always exists and lies in `[0, 100]`. -/
theorem C5_logbook_and_result (cx mpb : ℚ) (seed : ℕ) (gIn : RState)
    (records : List GenRecord)
    (hrec : records.map (fun r => r.gen) = List.range (NGEN + 1)) :
    (run_ea_logbook cx mpb seed gIn).length = 101 ∧
    (run_ea_logbook cx mpb seed gIn).map (fun r => r.gen) = List.range 101 ∧
    run_ea cx mpb seed gIn = deriveRunResult (run_ea_logbook cx mpb seed gIn) ∧
    ∃ g m, deriveRunResult records = (some g, some m) ∧ g ≤ NGEN ∧
      (∃ r ∈ records, r.gen = g ∧ r.maxF.2 = m) ∧
      (∀ r ∈ records, r.maxF.2 ≤ m) ∧
      (∀ r ∈ records, r.maxF.2 = m → g ≤ r.gen) := by
  refine ⟨run_ea_logbook_length cx mpb seed gIn, run_ea_logbook_gens cx mpb seed gIn,
    rfl, ?_⟩
  have hlen : records.length = NGEN + 1 := by
    have h := congrArg List.length hrec
    simpa using h
  have hne : records ≠ [] := by
    intro h
    rw [h] at hlen
    simp [NGEN] at hlen
  have hmne : records.map (fun e => e.maxF.2) ≠ [] := by
    simpa using hne
  obtain ⟨m, hm⟩ := pymax_of_ne_nil hmne
  obtain ⟨hmmem, hmub⟩ := pymax_spec hm
  obtain ⟨r0, hr0mem, hr0val⟩ := List.mem_map.mp hmmem
  have hfind_some : ((records.find? fun e => e.maxF.2 == m).isSome) :=
    List.find?_isSome.mpr ⟨r0, hr0mem, by simp [hr0val]⟩
  obtain ⟨r1, hr1⟩ := Option.isSome_iff_exists.mp hfind_some
  have hr1mem := List.mem_of_find?_eq_some hr1
  have hr1val : r1.maxF.2 = m := by
    have h := List.find?_some hr1
    simpa using h
  have hderive : deriveRunResult records = (some r1.gen, some m) := by
    unfold deriveRunResult
    rw [hm]
    show (Option.map (fun e => e.gen) (records.find? fun e => e.maxF.2 == m), some m) =
      (some r1.gen, some m)
    rw [hr1]
    rfl
  have hgin : r1.gen ∈ List.range (NGEN + 1) := by
    rw [← hrec]
    exact List.mem_map_of_mem _ hr1mem
  have hmin := find?_gen_min (gens_pairwise hrec) hr1
  refine ⟨r1.gen, m, hderive, Nat.lt_succ_iff.mp (List.mem_range.mp hgin),
    ⟨r1, hr1mem, rfl, hr1val⟩, fun r hr => hmub _ (List.mem_map_of_mem _ hr),
    fun r hr hrm => hmin r hr (by simp [hrm])⟩

/-- Witness for C5 at concrete arguments and a concrete record list
with the run's generation structure. -/
theorem C5_logbook_and_result_witness :
    (run_ea_logbook 0 0 1 0).length = 101 ∧
    (run_ea_logbook 0 0 1 0).map (fun r => r.gen) = List.range 101 ∧
    run_ea 0 0 1 0 = deriveRunResult (run_ea_logbook 0 0 1 0) ∧
    ∃ g m, deriveRunResult ((List.range (NGEN + 1)).map fun g =>
        ⟨g, (0, 0), (0, 0), (0, 0)⟩) = (some g, some m) ∧ g ≤ NGEN ∧
      (∃ r ∈ (List.range (NGEN + 1)).map fun g : ℕ =>
        (⟨g, (0, 0), (0, 0), (0, 0)⟩ : GenRecord), r.gen = g ∧ r.maxF.2 = m) ∧
      (∀ r ∈ (List.range (NGEN + 1)).map fun g : ℕ =>
        (⟨g, (0, 0), (0, 0), (0, 0)⟩ : GenRecord), r.maxF.2 ≤ m) ∧
      (∀ r ∈ (List.range (NGEN + 1)).map fun g : ℕ =>
        (⟨g, (0, 0), (0, 0), (0, 0)⟩ : GenRecord), r.maxF.2 = m → g ≤ r.gen) :=
  C5_logbook_and_result 0 0 1 0 _ (by rw [List.map_map]; exact List.map_id _)

/-- C6: `run_ea` is deterministic in its arguments — the run reseeds
the pseudo-random stream from `seed` at its start (item generation,
population initialization and operator randomness all read the reseeded
stream), so whatever the global stream state when it is invoked, two
runs with the same `(cxpb, mutpb, seed)` produce the identical Logbook
and the identical Run Result. -/
theorem C6_run_ea_deterministic (cx mpb : ℚ) (seed : ℕ) (g1 g2 : RState) :
    run_ea_logbook cx mpb seed g1 = run_ea_logbook cx mpb seed g2 ∧
    run_ea cx mpb seed g1 = run_ea cx mpb seed g2 :=
  ⟨rfl, rfl⟩

end Knapsack
